import Mathlib

set_option maxRecDepth 8000

/-! Shallow embedding of pcachefs (src/pcachefs.py): the `Cacher` byte-range
cache engine, its `UnderlyingFs` collaborator and the FUSE-facing `open`
access check, together with the ranges module (imported by the source as
`from ranges import (Ranges, Range)` but not present under src/), which is
modelled from the spec.

Bytes are naturals; a file's content is a list of bytes.  The engine is
modelled per path: every Cacher operation touches only the cache files of
the path it is called on, so a state is the quadruple of that path's cache
files (cache.data, cache.data.range, cache.stat, cache.list), each present
or absent, and the underlying source is what the source filesystem holds at
that path at call time. -/

/-- Half-open byte interval [start, stop).  The source class is
`Range(start, end)`; the second field is named `stop` here because `end` is
a Lean keyword. -/
structure Range where
  start : Nat
  stop : Nat
deriving DecidableEq, Repr

/-- Modelled from the spec: `Range.size`, the length of the interval, used
by the source as `block.size` when fetching a gap. -/
def Range.size (r : Range) : Nat := r.stop - r.start

/-- Modelled from the spec: the Coverage of the ranges module (class
`Ranges`), a list of covered intervals kept sorted by start, pairwise
non-overlapping and non-adjacent. -/
structure Ranges where
  ranges : List Range
deriving DecidableEq, Repr

/-- The empty Coverage, `Ranges()` in the source. -/
def Ranges.empty : Ranges := ⟨[]⟩

/-- Modelled from the spec: insertion of one interval into a sorted disjoint
interval list, merging it with every overlapping or adjacent interval. -/
def Ranges.addAux : List Range → Range → List Range
  | [], r => [r]
  | x :: xs, r =>
    if x.stop < r.start then x :: Ranges.addAux xs r
    else if r.stop < x.start then r :: x :: xs
    else Ranges.addAux xs ⟨min r.start x.start, max r.stop x.stop⟩

/-- Modelled from the spec: `add_range` inserts an interval into Coverage,
merging with any overlapping or adjacent existing intervals; a zero-length
interval leaves Coverage unchanged (its union contributes nothing). -/
def Ranges.add_range (c : Ranges) (r : Range) : Ranges :=
  if r.stop ≤ r.start then c else ⟨Ranges.addAux c.ranges r⟩

/-- Modelled from the spec: the uncovered gaps of the window [lo, hi)
against a sorted disjoint interval list, in ascending order. -/
def Ranges.uncoveredAux : List Range → Nat → Nat → List Range
  | [], lo, hi => if lo < hi then [⟨lo, hi⟩] else []
  | x :: xs, lo, hi =>
    if hi ≤ lo then []
    else if x.stop ≤ lo then Ranges.uncoveredAux xs lo hi
    else if hi ≤ x.start then [⟨lo, hi⟩]
    else (if lo < x.start then [⟨lo, x.start⟩] else []) ++ Ranges.uncoveredAux xs x.stop hi

/-- Modelled from the spec: `get_uncovered_portions(query)` returns the
minimal set of maximal sub-intervals of the query not currently in
Coverage, in ascending offset order. -/
def Ranges.get_uncovered_portions (c : Ranges) (q : Range) : List Range :=
  Ranges.uncoveredAux c.ranges q.start q.stop

/-- A byte offset lies inside one of the intervals of the list. -/
def memL (l : List Range) (n : Nat) : Prop := ∃ r ∈ l, r.start ≤ n ∧ n < r.stop

instance (l : List Range) (n : Nat) : Decidable (memL l n) := by
  unfold memL; infer_instance

/-- A byte offset is covered by the Coverage. -/
def Ranges.covers (c : Ranges) (n : Nat) : Prop := memL c.ranges n

instance (c : Ranges) (n : Nat) : Decidable (c.covers n) := by
  unfold Ranges.covers; infer_instance

/-- Well-formedness of an interval list: sorted with at least one uncovered
byte between consecutive intervals, and every interval nonempty. -/
def RangesWF (l : List Range) : Prop :=
  l.Pairwise (fun a b => a.stop < b.start) ∧ ∀ r ∈ l, r.start < r.stop

/-- Well-formedness of a Coverage. -/
def Ranges.WF (c : Ranges) : Prop := RangesWF c.ranges

/-- The stat record cached by the engine (class `FuseStat` in the source,
built from `os.stat`); only `st_size` is consumed by `Cacher.read`, the
other fields are carried as plain data. -/
structure FuseStat where
  st_size : Nat
  st_mode : Nat
  st_mtime : Nat
deriving DecidableEq, Repr

/-- What the underlying (real) filesystem holds at the modelled path. -/
inductive UNode where
  | file (stat : FuseStat) (content : List Nat)
  | dir (stat : FuseStat) (entries : List String)
deriving DecidableEq, Repr

/-- The stat of an underlying node, as returned by `os.stat`. -/
def UNode.stat : UNode → FuseStat
  | .file s _ => s
  | .dir s _ => s

/-- Error outcomes of the modelled operations: `NotFound` for a path absent
at the underlying source (ENOENT), `IOError` for every other raised
IOError/OSError (seek before start of file, reading a directory, listing a
file, injected transport failure). -/
inductive Err where
  | NotFound
  | IOError
deriving DecidableEq, Repr

/-- The underlying source as seen at the modelled path, plus fault
injection.  Modelled from the spec: the underlying source interface "may
fail or time out per call"; `read_faults` lists the read requests (as
half-open intervals) that fail with IOError at transport level. -/
structure Underlying where
  node : Option UNode
  read_faults : List Range
deriving DecidableEq, Repr

/-- UnderlyingFs.getattr: `os.stat` on the real path, ENOENT if absent. -/
def UnderlyingFs.getattr (u : Underlying) : Except Err FuseStat :=
  match u.node with
  | none => .error .NotFound
  | some n => .ok n.stat

/-- UnderlyingFs.read: open the real path, `f.seek(offset)`, then
`f.read(size)`, which returns up to `size` bytes and fewer at end of
file. -/
def UnderlyingFs.read (u : Underlying) (size offset : Nat) : Except Err (List Nat) :=
  if Range.mk offset (offset + size) ∈ u.read_faults then .error .IOError
  else match u.node with
    | none => .error .NotFound
    | some (.file _ content) => .ok ((content.drop offset).take size)
    | some (.dir _ _) => .error .IOError

/-- UnderlyingFs.readdir: prepend "." and ".." when the real path is a
directory, then `os.listdir` (which raises when the path is not a
directory). -/
def UnderlyingFs.readdir (u : Underlying) : Except Err (List String) :=
  match u.node with
  | none => .error .NotFound
  | some (.file _ _) => .error .IOError
  | some (.dir _ entries) => .ok ("." :: ".." :: entries)

/-- One call made to the underlying source: a stat, a directory listing, or
a byte-range fetch `underlying_fs.read(path, size, offset)` together with
the bytes it returned (`none` when the call raised). -/
inductive UCall where
  | stat
  | list
  | fetch (size offset : Nat) (returned : Option (List Nat))
deriving DecidableEq, Repr

/-- The persisted cache files of the modelled path: cache.data,
cache.data.range (pickled Ranges), cache.stat (pickled FuseStat) and
cache.list (pickled listing); each is present or absent on disk. -/
structure CacheEntry where
  data : Option (List Nat)
  ranges : Option Ranges
  stat : Option FuseStat
  listing : Option (List String)
deriving DecidableEq, Repr

/-- A path with no cache files yet. -/
def CacheEntry.empty : CacheEntry := ⟨none, none, none, none⟩

instance {ε α : Type} [DecidableEq ε] [DecidableEq α] : DecidableEq (Except ε α) := fun a b =>
  match a, b with
  | .error e, .error f =>
    if h : e = f then isTrue (by rw [h]) else isFalse (fun hh => by cases hh; exact h rfl)
  | .error _, .ok _ => isFalse (fun hh => by cases hh)
  | .ok _, .error _ => isFalse (fun hh => by cases hh)
  | .ok x, .ok y =>
    if h : x = y then isTrue (by rw [h]) else isFalse (fun hh => by cases hh; exact h rfl)

/-- Outcome of one Cacher operation: its return value or raised error, the
cache files on disk afterwards, and the calls made to the underlying
source, in order. -/
structure OpResult (α : Type) where
  ret : Except Err α
  st : CacheEntry
  calls : List UCall
deriving DecidableEq, Repr

/-- Cacher.getattr: serve the pickled cache.stat when it exists; otherwise
ask the underlying source, and persist the record before returning.  A
raised error propagates before anything is persisted. -/
def Cacher.getattr (u : Underlying) (s : CacheEntry) : OpResult FuseStat :=
  match s.stat with
  | some a => ⟨.ok a, s, []⟩
  | none =>
    match UnderlyingFs.getattr u with
    | .error e => ⟨.error e, s, [.stat]⟩
    | .ok a => ⟨.ok a, { s with stat := some a }, [.stat]⟩

/-- Cacher.readdir: serve the pickled cache.list when it exists; otherwise
ask the underlying source, persist the listing, and return it. -/
def Cacher.readdir (u : Underlying) (s : CacheEntry) : OpResult (List String) :=
  match s.listing with
  | some l => ⟨.ok l, s, []⟩
  | none =>
    match UnderlyingFs.readdir u with
    | .error e => ⟨.error e, s, [.list]⟩
    | .ok l => ⟨.ok l, { s with listing := some l }, [.list]⟩

/-- Writing `b` into a file whose bytes are `d` after seeking to `pos`:
overwrites in place, extends the file when the write runs past the end
(zero-filling any hole), and leaves the file untouched when `b` is empty
(a write of zero bytes never extends a file). -/
def fileWrite (d : List Nat) (pos : Nat) (b : List Nat) : List Nat :=
  if b.isEmpty then d
  else d.take pos ++ List.replicate (pos - d.length) 0 ++ b ++ d.drop (pos + b.length)

/-- The gap-fetch loop of Cacher.read: for each block still to read, in
order, fetch exactly that sub-range from the underlying source, add the
block to the in-memory Coverage, and write the returned bytes into
cache.data at the block's start.  A raised fetch error aborts the loop
before that block contributes anything. -/
def Cacher.readLoop (u : Underlying) : List Range → Ranges → List Nat → List UCall →
    Except Err Unit × Ranges × List Nat × List UCall
  | [], cb, d, cs => (.ok (), cb, d, cs)
  | b :: rest, cb, d, cs =>
    match UnderlyingFs.read u b.size b.start with
    | .error e => (.error e, cb, d, cs ++ [.fetch b.size b.start none])
    | .ok bd =>
      Cacher.readLoop u rest (cb.add_range b) (fileWrite d b.start bd)
        (cs ++ [.fetch b.size b.start (some bd)])

/-- The part of Cacher.read that runs once cache.data exists with bytes
`d`: compute the blocks still to read from the pickled Coverage, run the
gap-fetch loop when there are any (persisting the updated Coverage only
after every gap succeeded), and finally serve [offset, offset+size) from
cache.data.  On a loop error the bytes written so far remain on disk but
cache.data.range is not rewritten, and the error propagates. -/
def Cacher.readCore (u : Underlying) (s : CacheEntry) (d : List Nat) (cs : List UCall)
    (size offset : Nat) : OpResult (List Nat) :=
  let cached_blocks := s.ranges.getD Ranges.empty
  let blocks_to_read := cached_blocks.get_uncovered_portions ⟨offset, offset + size⟩
  if blocks_to_read.isEmpty then ⟨.ok ((d.drop offset).take size), s, cs⟩
  else
    match Cacher.readLoop u blocks_to_read cached_blocks d cs with
    | (.error e, _, d', cs') => ⟨.error e, { s with data := some d' }, cs'⟩
    | (.ok _, cb', d', cs') =>
      ⟨.ok ((d'.drop offset).take size), { s with data := some d', ranges := some cb' }, cs'⟩

/-- Cacher.read(path, size, offset).  When cache.data does not exist yet it
is created pre-sized to the stat's st_size by opening it for writing (which
creates an empty file), seeking to st_size - 1 and writing one zero byte;
for st_size = 0 that seek targets offset -1 and raises IOError, leaving the
just-created empty cache.data behind.  The stat comes from Cacher.getattr,
so a first read may itself fetch and persist cache.stat. -/
def Cacher.read (u : Underlying) (s : CacheEntry) (size offset : Nat) : OpResult (List Nat) :=
  match s.data with
  | some d => Cacher.readCore u s d [] size offset
  | none =>
    let g := Cacher.getattr u s
    match g.ret with
    | .error e => ⟨.error e, g.st, g.calls⟩
    | .ok a =>
      if a.st_size = 0 then ⟨.error .IOError, { g.st with data := some [] }, g.calls⟩
      else
        Cacher.readCore u { g.st with data := some (List.replicate a.st_size 0) }
          (List.replicate a.st_size 0) g.calls size offset

/-- The effect on cache.data of one successful gap fetch (used to state
what the store holds after the gaps processed before a failure). -/
def applyBlock (u : Underlying) (d : List Nat) (b : Range) : List Nat :=
  match UnderlyingFs.read u b.size b.start with
  | .ok bd => fileWrite d b.start bd
  | .error _ => d

/-- The bytes the underlying source hands back for a block, if any. -/
def fetchRet (u : Underlying) (b : Range) : Option (List Nat) :=
  (UnderlyingFs.read u b.size b.start).toOption

/-- os.O_RDONLY. -/
def O_RDONLY : Nat := 0
/-- os.O_WRONLY. -/
def O_WRONLY : Nat := 1
/-- os.O_RDWR. -/
def O_RDWR : Nat := 2
/-- errno.EACCES. -/
def errnoEACCES : Int := 13

/-- PersistentCacheFs.open: reject any access mode other than read-only
with -EACCES, accept read-only opens.  (Named open_ because `open` is a
Lean keyword.) -/
def PersistentCacheFs.open_ (flags : Nat) : Int :=
  if flags &&& (O_RDONLY ||| O_WRONLY ||| O_RDWR) ≠ O_RDONLY then -errnoEACCES else 0

/-- Well-formedness of a cache state: the pickled Coverage, when present,
is well-formed. -/
def CacheEntry.WF (s : CacheEntry) : Prop := ∀ c, s.ranges = some c → c.WF

/-- A byte offset of the modelled path counted as covered by the persisted
Coverage (an absent cache.data.range means empty Coverage). -/
def CacheEntry.covered (s : CacheEntry) (n : Nat) : Prop :=
  (s.ranges.getD Ranges.empty).covers n

/-- The cache/source agreement invariant for a file of stat `st` and bytes
`content`: the Coverage is well-formed, a Coverage record only exists once
cache.data does, a cached stat is the source's stat, and cache.data is
pre-sized to the source size with every covered byte below the source size
holding exactly the source's byte. -/
def CacheInv (st : FuseStat) (content : List Nat) (s : CacheEntry) : Prop :=
  s.WF ∧
  (s.ranges.isSome → s.data.isSome) ∧
  (∀ a, s.stat = some a → a = st) ∧
  (∀ d, s.data = some d → d.length = content.length ∧
    ∀ n, n < content.length → s.covered n → d.getD n 0 = content.getD n 0)

/-- The file /a.txt of the spec's scenario: ten bytes "0123456789". -/
def digits : List Nat := [48, 49, 50, 51, 52, 53, 54, 55, 56, 57]

/-- The stat of /a.txt: size 10. -/
def aStat : FuseStat := ⟨10, 0, 0⟩

/-- The underlying source holding /a.txt, no transport faults. -/
def aFile : Underlying := ⟨some (.file aStat digits), []⟩

/-! Interval algebra of the modelled ranges module. -/

theorem memL_nil (n : Nat) : ¬ memL [] n := by
  simp [memL]

theorem memL_cons (x : Range) (l : List Range) (n : Nat) :
    memL (x :: l) n ↔ (x.start ≤ n ∧ n < x.stop) ∨ memL l n := by
  simp [memL]

theorem memL_append (l l' : List Range) (n : Nat) :
    memL (l ++ l') n ↔ memL l n ∨ memL l' n := by
  simp [memL, or_and_right, exists_or]

theorem memL_lb (l : List Range) (b n : Nat) (hl : ∀ y ∈ l, b < y.start)
    (h : memL l n) : b < n := by
  obtain ⟨r, hr, h1, _⟩ := h
  exact lt_of_lt_of_le (hl r hr) h1

theorem merge_cover (x r : Range) (n : Nat) (h1 : r.start ≤ x.stop) (h2 : x.start ≤ r.stop) :
    (min r.start x.start ≤ n ∧ n < max r.stop x.stop) ↔
      (x.start ≤ n ∧ n < x.stop) ∨ (r.start ≤ n ∧ n < r.stop) := by
  omega

theorem addAux_mem (l : List Range) (r : Range) (n : Nat) :
    memL (Ranges.addAux l r) n ↔ memL l n ∨ (r.start ≤ n ∧ n < r.stop) := by
  induction l generalizing r with
  | nil => simp [Ranges.addAux, memL_cons, memL_nil, memL]
  | cons x xs ih =>
    by_cases h1 : x.stop < r.start
    · rw [Ranges.addAux, if_pos h1, memL_cons, memL_cons, ih]
      tauto
    · by_cases h2 : r.stop < x.start
      · rw [Ranges.addAux, if_neg h1, if_pos h2]
        simp only [memL_cons]
        tauto
      · rw [Ranges.addAux, if_neg h1, if_neg h2, ih, memL_cons]
        rw [show (Range.mk (min r.start x.start) (max r.stop x.stop)).start
              = min r.start x.start from rfl,
            show (Range.mk (min r.start x.start) (max r.stop x.stop)).stop
              = max r.stop x.stop from rfl]
        rw [merge_cover x r n (by omega) (by omega)]
        tauto

theorem addAux_lb (l : List Range) (r : Range) (b : Nat)
    (hl : ∀ y ∈ l, b < y.start) (hr : b < r.start) :
    ∀ y ∈ Ranges.addAux l r, b < y.start := by
  induction l generalizing r with
  | nil =>
    intro y hy
    simp [Ranges.addAux] at hy
    simp [hy, hr]
  | cons x xs ih =>
    intro y hy
    by_cases h1 : x.stop < r.start
    · rw [Ranges.addAux, if_pos h1] at hy
      rcases List.mem_cons.mp hy with h | h
      · exact h ▸ hl x (List.mem_cons_self x xs)
      · exact ih r (fun z hz => hl z (List.mem_cons_of_mem x hz)) hr y h
    · by_cases h2 : r.stop < x.start
      · rw [Ranges.addAux, if_neg h1, if_pos h2] at hy
        rcases List.mem_cons.mp hy with h | h
        · exact h ▸ hr
        · exact hl y h
      · rw [Ranges.addAux, if_neg h1, if_neg h2] at hy
        refine ih _ (fun z hz => hl z (List.mem_cons_of_mem x hz)) ?_ y hy
        have hx := hl x (List.mem_cons_self x xs)
        show b < min r.start x.start
        omega

theorem addAux_WF (l : List Range) (r : Range) (hWF : RangesWF l) (hr : r.start < r.stop) :
    RangesWF (Ranges.addAux l r) := by
  induction l generalizing r with
  | nil =>
    constructor
    · simp [Ranges.addAux]
    · intro y hy
      simp [Ranges.addAux] at hy
      simp [hy, hr]
  | cons x xs ih =>
    obtain ⟨hp, hne⟩ := hWF
    rw [List.pairwise_cons] at hp
    have hxs : RangesWF xs := ⟨hp.2, fun z hz => hne z (List.mem_cons_of_mem x hz)⟩
    by_cases h1 : x.stop < r.start
    · rw [Ranges.addAux, if_pos h1]
      obtain ⟨ihp, ihne⟩ := ih r hxs hr
      constructor
      · rw [List.pairwise_cons]
        exact ⟨addAux_lb xs r x.stop hp.1 h1, ihp⟩
      · intro y hy
        rcases List.mem_cons.mp hy with h | h
        · exact h ▸ hne x (List.mem_cons_self x xs)
        · exact ihne y h
    · by_cases h2 : r.stop < x.start
      · rw [Ranges.addAux, if_neg h1, if_pos h2]
        constructor
        · rw [List.pairwise_cons]
          refine ⟨?_, List.pairwise_cons.mpr hp⟩
          intro y hy
          rcases List.mem_cons.mp hy with h | h
          · subst h; omega
          · have := hp.1 y h
            have := hne x (List.mem_cons_self x xs)
            omega
        · intro y hy
          rcases List.mem_cons.mp hy with h | h
          · exact h ▸ hr
          · exact hne y h
      · rw [Ranges.addAux, if_neg h1, if_neg h2]
        exact ih _ hxs (by show min r.start x.start < max r.stop x.stop; omega)

theorem add_range_covers (c : Ranges) (r : Range) (n : Nat) :
    (c.add_range r).covers n ↔ c.covers n ∨ (r.start ≤ n ∧ n < r.stop) := by
  unfold Ranges.add_range
  by_cases h : r.stop ≤ r.start
  · rw [if_pos h]
    constructor
    · exact Or.inl
    · rintro (hc | hc)
      · exact hc
      · omega
  · rw [if_neg h]
    exact addAux_mem c.ranges r n

theorem add_range_WF (c : Ranges) (r : Range) (h : c.WF) : (c.add_range r).WF := by
  unfold Ranges.add_range
  by_cases hr : r.stop ≤ r.start
  · rw [if_pos hr]; exact h
  · rw [if_neg hr]
    exact addAux_WF c.ranges r h (by omega)

theorem foldl_add_range (added : List Range) (c0 : Ranges) (h0 : c0.WF) :
    (added.foldl Ranges.add_range c0).WF ∧
    ∀ n, (added.foldl Ranges.add_range c0).covers n ↔
      c0.covers n ∨ ∃ r ∈ added, r.start ≤ n ∧ n < r.stop := by
  induction added generalizing c0 with
  | nil => simp [h0]
  | cons r rest ih =>
    obtain ⟨ihWF, ihcov⟩ := ih (c0.add_range r) (add_range_WF c0 r h0)
    refine ⟨ihWF, fun n => ?_⟩
    rw [List.foldl_cons, ihcov n, add_range_covers]
    simp only [List.mem_cons]
    constructor
    · rintro ((hc | hc) | ⟨s, hs, h1, h2⟩)
      · exact Or.inl hc
      · exact Or.inr ⟨r, Or.inl rfl, hc⟩
      · exact Or.inr ⟨s, Or.inr hs, h1, h2⟩
    · rintro (hc | ⟨s, (rfl | hs), h1, h2⟩)
      · exact Or.inl (Or.inl hc)
      · exact Or.inl (Or.inr ⟨h1, h2⟩)
      · exact Or.inr ⟨s, hs, h1, h2⟩

theorem uncoveredAux_of_le (l : List Range) (lo hi : Nat) (h : hi ≤ lo) :
    Ranges.uncoveredAux l lo hi = [] := by
  cases l with
  | nil => rw [Ranges.uncoveredAux, if_neg (by omega)]
  | cons x xs => rw [Ranges.uncoveredAux, if_pos h]

theorem uncoveredAux_mem (l : List Range) (lo hi n : Nat) (hWF : RangesWF l) :
    memL (Ranges.uncoveredAux l lo hi) n ↔ lo ≤ n ∧ n < hi ∧ ¬ memL l n := by
  induction l generalizing lo with
  | nil =>
    have hnil : ¬ memL [] n := memL_nil n
    by_cases h : lo < hi
    · rw [Ranges.uncoveredAux, if_pos h, memL_cons]
      constructor
      · rintro (⟨ha, hb⟩ | hm)
        · exact ⟨ha, hb, hnil⟩
        · exact absurd hm (memL_nil n)
      · rintro ⟨ha, hb, _⟩
        exact Or.inl ⟨ha, hb⟩
    · rw [Ranges.uncoveredAux, if_neg h]
      constructor
      · intro hm
        exact absurd hm (memL_nil n)
      · rintro ⟨ha, hb, _⟩
        omega
  | cons x xs ih =>
    obtain ⟨hp, hne⟩ := hWF
    rw [List.pairwise_cons] at hp
    have hxs : RangesWF xs := ⟨hp.2, fun z hz => hne z (List.mem_cons_of_mem x hz)⟩
    have hxne : x.start < x.stop := hne x (List.mem_cons_self x xs)
    rw [Ranges.uncoveredAux]
    by_cases h0 : hi ≤ lo
    · rw [if_pos h0]
      constructor
      · intro hm
        exact absurd hm (memL_nil n)
      · rintro ⟨ha, hb, _⟩
        omega
    · rw [if_neg h0]
      by_cases h1 : x.stop ≤ lo
      · rw [if_pos h1, ih lo hxs]
        constructor
        · rintro ⟨ha, hb, hc⟩
          refine ⟨ha, hb, fun hd => ?_⟩
          rcases (memL_cons x xs n).mp hd with ⟨_, hf⟩ | hd
          · omega
          · exact hc hd
        · rintro ⟨ha, hb, hc⟩
          exact ⟨ha, hb, fun hd => hc ((memL_cons x xs n).mpr (Or.inr hd))⟩
      · rw [if_neg h1]
        by_cases h2 : hi ≤ x.start
        · rw [if_pos h2, memL_cons]
          have hnx : ∀ m, m < hi → ¬ memL (x :: xs) m := by
            intro m hm hmem
            rcases (memL_cons x xs m).mp hmem with ⟨ha, hb⟩ | hmem
            · omega
            · have := memL_lb xs x.stop m hp.1 hmem
              omega
          constructor
          · rintro (⟨ha, hb⟩ | hmem)
            · exact ⟨ha, hb, hnx n hb⟩
            · exact absurd hmem (memL_nil n)
          · rintro ⟨ha, hb, _⟩
            exact Or.inl ⟨ha, hb⟩
        · rw [if_neg h2, memL_append, ih x.stop hxs, memL_cons]
          have hgap : memL (if lo < x.start then [⟨lo, x.start⟩] else []) n ↔
              lo ≤ n ∧ n < x.start := by
            by_cases h3 : lo < x.start
            · rw [if_pos h3, memL_cons]
              constructor
              · rintro (⟨ha, hb⟩ | hm)
                · exact ⟨ha, hb⟩
                · exact absurd hm (memL_nil n)
              · rintro ⟨ha, hb⟩
                exact Or.inl ⟨ha, hb⟩
            · rw [if_neg h3]
              constructor
              · intro hm
                exact absurd hm (memL_nil n)
              · rintro ⟨ha, hb⟩
                omega
          rw [hgap]
          by_cases hb : memL xs n
          · have hlow := memL_lb xs x.stop n hp.1 hb
            constructor
            · rintro (ha | ⟨ha1, ha2, ha3⟩)
              · omega
              · exact absurd hb ha3
            · rintro ⟨ha, hc, hd⟩
              exact absurd ((memL_cons x xs n).mpr (Or.inr hb))
                (fun hh => hd ((memL_cons x xs n).mp hh))
          · constructor
            · rintro (ha | ⟨ha1, ha2, ha3⟩)
              · refine ⟨by omega, by omega, ?_⟩
                rintro (hc | hc)
                · omega
                · exact hb hc
              · refine ⟨by omega, ha2, ?_⟩
                rintro (hc | hc)
                · omega
                · exact hb hc
            · rintro ⟨ha, hc, hd⟩
              by_cases he : n < x.start
              · exact Or.inl ⟨ha, he⟩
              · refine Or.inr ⟨?_, hc, fun hf => hd (Or.inr hf)⟩
                by_contra hg
                exact hd (Or.inl ⟨by omega, by omega⟩)

theorem uncoveredAux_bounds (l : List Range) (lo hi : Nat) :
    ∀ g ∈ Ranges.uncoveredAux l lo hi, lo ≤ g.start ∧ g.stop ≤ hi ∧ g.start < g.stop := by
  induction l generalizing lo with
  | nil =>
    intro g hg
    by_cases h : lo < hi
    · rw [Ranges.uncoveredAux, if_pos h] at hg
      rcases List.mem_cons.mp hg with hgg | hgg
      · subst hgg; exact ⟨le_refl _, le_refl _, h⟩
      · exact absurd hgg (List.not_mem_nil g)
    · rw [Ranges.uncoveredAux, if_neg h] at hg
      exact absurd hg (List.not_mem_nil g)
  | cons x xs ih =>
    intro g hg
    rw [Ranges.uncoveredAux] at hg
    by_cases h0 : hi ≤ lo
    · rw [if_pos h0] at hg
      exact absurd hg (List.not_mem_nil g)
    · rw [if_neg h0] at hg
      by_cases h1 : x.stop ≤ lo
      · rw [if_pos h1] at hg
        exact ih lo g hg
      · rw [if_neg h1] at hg
        by_cases h2 : hi ≤ x.start
        · rw [if_pos h2] at hg
          rcases List.mem_cons.mp hg with hgg | hgg
          · subst hgg; exact ⟨le_refl _, le_refl _, by show lo < hi; omega⟩
          · exact absurd hgg (List.not_mem_nil g)
        · rw [if_neg h2] at hg
          rcases List.mem_append.mp hg with hgg | hgg
          · by_cases h3 : lo < x.start
            · rw [if_pos h3] at hgg
              rcases List.mem_cons.mp hgg with hgh | hgh
              · subst hgh
                exact ⟨le_refl _, by show x.start ≤ hi; omega, h3⟩
              · exact absurd hgh (List.not_mem_nil g)
            · rw [if_neg h3] at hgg
              exact absurd hgg (List.not_mem_nil g)
          · obtain ⟨ha, hb, hc⟩ := ih x.stop g hgg
            exact ⟨by omega, hb, hc⟩

theorem uncoveredAux_pairwise (l : List Range) (lo hi : Nat) (hWF : RangesWF l) :
    (Ranges.uncoveredAux l lo hi).Pairwise (fun a b => a.stop < b.start) := by
  induction l generalizing lo with
  | nil =>
    by_cases h : lo < hi
    · rw [Ranges.uncoveredAux, if_pos h]
      exact List.pairwise_singleton _ _
    · rw [Ranges.uncoveredAux, if_neg h]
      exact List.Pairwise.nil
  | cons x xs ih =>
    obtain ⟨hp, hne⟩ := hWF
    rw [List.pairwise_cons] at hp
    have hxs : RangesWF xs := ⟨hp.2, fun z hz => hne z (List.mem_cons_of_mem x hz)⟩
    have hxne : x.start < x.stop := hne x (List.mem_cons_self x xs)
    rw [Ranges.uncoveredAux]
    by_cases h0 : hi ≤ lo
    · rw [if_pos h0]; exact List.Pairwise.nil
    · rw [if_neg h0]
      by_cases h1 : x.stop ≤ lo
      · rw [if_pos h1]; exact ih lo hxs
      · rw [if_neg h1]
        by_cases h2 : hi ≤ x.start
        · rw [if_pos h2]; exact List.pairwise_singleton _ _
        · rw [if_neg h2]
          by_cases h3 : lo < x.start
          · rw [if_pos h3]
            rw [List.singleton_append, List.pairwise_cons]
            refine ⟨fun g hg => ?_, ih x.stop hxs⟩
            have := (uncoveredAux_bounds xs x.stop hi g hg).1
            show x.start < g.start
            omega
          · rw [if_neg h3, List.nil_append]
            exact ih x.stop hxs

theorem uncoveredWF (l : List Range) (lo hi : Nat) (hWF : RangesWF l) :
    RangesWF (Ranges.uncoveredAux l lo hi) :=
  ⟨uncoveredAux_pairwise l lo hi hWF, fun g hg => (uncoveredAux_bounds l lo hi g hg).2.2⟩

theorem uncoveredAux_maximal (l : List Range) (lo hi : Nat) (hWF : RangesWF l) :
    ∀ g ∈ Ranges.uncoveredAux l lo hi,
      (g.start = lo ∨ (0 < g.start ∧ memL l (g.start - 1))) ∧
      (g.stop = hi ∨ memL l g.stop) := by
  induction l generalizing lo with
  | nil =>
    intro g hg
    by_cases h : lo < hi
    · rw [Ranges.uncoveredAux, if_pos h] at hg
      rcases List.mem_cons.mp hg with hgg | hgg
      · subst hgg; exact ⟨Or.inl rfl, Or.inl rfl⟩
      · exact absurd hgg (List.not_mem_nil g)
    · rw [Ranges.uncoveredAux, if_neg h] at hg
      exact absurd hg (List.not_mem_nil g)
  | cons x xs ih =>
    obtain ⟨hp, hne⟩ := hWF
    rw [List.pairwise_cons] at hp
    have hxs : RangesWF xs := ⟨hp.2, fun z hz => hne z (List.mem_cons_of_mem x hz)⟩
    have hxne : x.start < x.stop := hne x (List.mem_cons_self x xs)
    intro g hg
    rw [Ranges.uncoveredAux] at hg
    by_cases h0 : hi ≤ lo
    · rw [if_pos h0] at hg
      exact absurd hg (List.not_mem_nil g)
    · rw [if_neg h0] at hg
      by_cases h1 : x.stop ≤ lo
      · rw [if_pos h1] at hg
        obtain ⟨ha, hb⟩ := ih lo hxs g hg
        constructor
        · rcases ha with ha | ⟨ha1, ha2⟩
          · exact Or.inl ha
          · exact Or.inr ⟨ha1, (memL_cons x xs _).mpr (Or.inr ha2)⟩
        · rcases hb with hb | hb
          · exact Or.inl hb
          · exact Or.inr ((memL_cons x xs _).mpr (Or.inr hb))
      · rw [if_neg h1] at hg
        by_cases h2 : hi ≤ x.start
        · rw [if_pos h2] at hg
          rcases List.mem_cons.mp hg with hgg | hgg
          · subst hgg; exact ⟨Or.inl rfl, Or.inl rfl⟩
          · exact absurd hgg (List.not_mem_nil g)
        · rw [if_neg h2] at hg
          rcases List.mem_append.mp hg with hgg | hgg
          · by_cases h3 : lo < x.start
            · rw [if_pos h3] at hgg
              rcases List.mem_cons.mp hgg with hgh | hgh
              · subst hgh
                refine ⟨Or.inl rfl, Or.inr ?_⟩
                exact (memL_cons x xs _).mpr (Or.inl ⟨le_refl _, hxne⟩)
              · exact absurd hgh (List.not_mem_nil g)
            · rw [if_neg h3] at hgg
              exact absurd hgg (List.not_mem_nil g)
          · obtain ⟨ha, hb⟩ := ih x.stop hxs g hgg
            constructor
            · rcases ha with ha | ⟨ha1, ha2⟩
              · refine Or.inr ⟨by omega, ?_⟩
                refine (memL_cons x xs _).mpr (Or.inl ⟨by omega, by omega⟩)
              · exact Or.inr ⟨ha1, (memL_cons x xs _).mpr (Or.inr ha2)⟩
            · rcases hb with hb | hb
              · exact Or.inl hb
              · exact Or.inr ((memL_cons x xs _).mpr (Or.inr hb))

theorem uncoveredAux_nil_of_covered (l : List Range) (lo hi : Nat) (hWF : RangesWF l)
    (hcov : ∀ n, n < hi → lo ≤ n → memL l n) :
    Ranges.uncoveredAux l lo hi = [] := by
  cases hout : Ranges.uncoveredAux l lo hi with
  | nil => rfl
  | cons g gs =>
    exfalso
    have hg : g ∈ Ranges.uncoveredAux l lo hi := by
      rw [hout]; exact List.mem_cons_self g gs
    obtain ⟨ha, hb, hc⟩ := uncoveredAux_bounds l lo hi g hg
    have hmem : memL (Ranges.uncoveredAux l lo hi) g.start :=
      ⟨g, hg, le_refl _, hc⟩
    rw [uncoveredAux_mem l lo hi g.start hWF] at hmem
    exact hmem.2.2 (hcov g.start (by omega) ha)

/-- C2: For all sequences of add_range calls the resulting Coverage has no
two intervals that overlap or touch and its union equals the union of all
added intervals; uncovered_portions(query) is exactly the minimal set of
maximal sub-intervals of the query missing from Coverage, in ascending
offset order, empty when the query is fully covered and empty for a
zero-length query. -/
theorem C2_tracker_correct (added : List Range) (q : Range) :
    (added.foldl Ranges.add_range Ranges.empty).WF ∧
    (∀ n, (added.foldl Ranges.add_range Ranges.empty).covers n ↔
        ∃ r ∈ added, r.start ≤ n ∧ n < r.stop) ∧
    (∀ n, memL ((added.foldl Ranges.add_range Ranges.empty).get_uncovered_portions q) n ↔
        q.start ≤ n ∧ n < q.stop ∧
          ¬ (added.foldl Ranges.add_range Ranges.empty).covers n) ∧
    RangesWF ((added.foldl Ranges.add_range Ranges.empty).get_uncovered_portions q) ∧
    (∀ g ∈ (added.foldl Ranges.add_range Ranges.empty).get_uncovered_portions q,
        q.start ≤ g.start ∧ g.stop ≤ q.stop ∧ g.start < g.stop) ∧
    (∀ g ∈ (added.foldl Ranges.add_range Ranges.empty).get_uncovered_portions q,
        (g.start = q.start ∨ (0 < g.start ∧
            (added.foldl Ranges.add_range Ranges.empty).covers (g.start - 1))) ∧
        (g.stop = q.stop ∨ (added.foldl Ranges.add_range Ranges.empty).covers g.stop)) ∧
    ((∀ n, n < q.stop → q.start ≤ n → (added.foldl Ranges.add_range Ranges.empty).covers n) →
        (added.foldl Ranges.add_range Ranges.empty).get_uncovered_portions q = []) ∧
    (q.stop ≤ q.start →
        (added.foldl Ranges.add_range Ranges.empty).get_uncovered_portions q = []) := by
  have hWFe : Ranges.empty.WF := ⟨List.Pairwise.nil, fun r hr => absurd hr (List.not_mem_nil r)⟩
  obtain ⟨hWF, hcov⟩ := foldl_add_range added Ranges.empty hWFe
  have hcov2 : ∀ n, (added.foldl Ranges.add_range Ranges.empty).covers n ↔
      ∃ r ∈ added, r.start ≤ n ∧ n < r.stop := by
    intro n
    rw [hcov n]
    constructor
    · rintro (hc | hc)
      · exact absurd hc (memL_nil n)
      · exact hc
    · exact Or.inr
  refine ⟨hWF, hcov2, fun n => uncoveredAux_mem _ q.start q.stop n hWF,
    uncoveredWF _ q.start q.stop hWF,
    uncoveredAux_bounds _ q.start q.stop,
    uncoveredAux_maximal _ q.start q.stop hWF, ?_, ?_⟩
  · intro hfull
    exact uncoveredAux_nil_of_covered _ q.start q.stop hWF (fun n h1 h2 => hfull n h1 h2)
  · intro h
    exact uncoveredAux_of_le _ q.start q.stop h

/-- Witness for C2 at concrete inputs: coverage built from [2,5) and [6,8)
merges [5,6)-adjacent pieces correctly, a fully covered query yields no
gaps, and a zero-length query yields no gaps. -/
theorem C2_tracker_correct_witness :
    ([Range.mk 2 5, Range.mk 5 8].foldl Ranges.add_range
        Ranges.empty).get_uncovered_portions ⟨2, 8⟩ = [] ∧
    ([Range.mk 1 2].foldl Ranges.add_range Ranges.empty).get_uncovered_portions ⟨4, 4⟩ = [] := by
  constructor
  · exact (C2_tracker_correct [Range.mk 2 5, Range.mk 5 8] ⟨2, 8⟩).2.2.2.2.2.2.1
      (by decide)
  · exact (C2_tracker_correct [Range.mk 1 2] ⟨4, 4⟩).2.2.2.2.2.2.2 (by decide)

/-! File-write and slice lemmas. -/

theorem fileWrite_length (d b : List Nat) (p : Nat) (h : p + b.length ≤ d.length) :
    (fileWrite d p b).length = d.length := by
  unfold fileWrite
  by_cases hb : b.isEmpty
  · rw [if_pos hb]
  · rw [if_neg hb]
    have hple : p ≤ d.length := by omega
    simp [List.length_append, List.length_take, List.length_drop, List.length_replicate]
    omega

theorem fileWrite_getElem? (d b : List Nat) (p n : Nat) (h : p + b.length ≤ d.length) :
    (fileWrite d p b)[n]? =
      if p ≤ n ∧ n < p + b.length then b[n - p]? else d[n]? := by
  by_cases hb : b.isEmpty
  · have hbe : b = [] := by
      cases b with
      | nil => rfl
      | cons y ys => simp [List.isEmpty] at hb
    subst hbe
    rw [fileWrite, if_pos (by rfl)]
    rw [if_neg (by simp)]
  · rw [fileWrite, if_neg hb]
    have hple : p ≤ d.length := by omega
    have h0 : p - d.length = 0 := Nat.sub_eq_zero_of_le hple
    rw [h0, List.replicate_zero, List.append_nil]
    have hlt : (d.take p).length = p := List.length_take_of_le hple
    have hlen2 : (d.take p ++ b).length = p + b.length := by
      rw [List.length_append, hlt]
    have e1 : ((d.take p ++ b) ++ d.drop (p + b.length))[n]? =
        if n < (d.take p ++ b).length then (d.take p ++ b)[n]?
        else (d.drop (p + b.length))[n - (d.take p ++ b).length]? := List.getElem?_append
    rw [e1, hlen2]
    have e2 : (d.take p ++ b)[n]? =
        if n < (d.take p).length then (d.take p)[n]? else b[n - (d.take p).length]? :=
      List.getElem?_append
    by_cases hn : n < p + b.length
    · rw [if_pos hn, e2, hlt]
      by_cases hn2 : n < p
      · rw [if_pos hn2, if_neg (by omega)]
        exact List.getElem?_take_of_lt hn2
      · rw [if_neg hn2, if_pos (by omega)]
    · rw [if_neg hn, if_neg (by omega)]
      rw [List.getElem?_drop]
      congr 1
      omega

theorem fileWrite_getD (d b : List Nat) (p n : Nat) (h : p + b.length ≤ d.length) :
    (fileWrite d p b).getD n 0 =
      if p ≤ n ∧ n < p + b.length then b.getD (n - p) 0 else d.getD n 0 := by
  rw [List.getD_eq_getElem?_getD, fileWrite_getElem? d b p n h, apply_ite (fun o => Option.getD o 0),
    List.getD_eq_getElem?_getD, List.getD_eq_getElem?_getD]

theorem slice_length (content : List Nat) (a k : Nat) :
    ((content.drop a).take k).length = min k (content.length - a) := by
  rw [List.length_take, List.length_drop]

theorem slice_getD (content : List Nat) (a k m : Nat) (hm : m < k) :
    ((content.drop a).take k).getD m 0 = content.getD (a + m) 0 := by
  rw [List.getD_eq_getElem?_getD, List.getD_eq_getElem?_getD,
    List.getElem?_take_of_lt hm, List.getElem?_drop]

/-! Gap-fetch loop lemmas. -/

theorem readLoop_ok_covers (u : Underlying) (blocks : List Range) (cb : Ranges)
    (d : List Nat) (cs : List UCall) (cb' : Ranges) (d' : List Nat) (cs' : List UCall)
    (h : Cacher.readLoop u blocks cb d cs = (.ok (), cb', d', cs')) (n : Nat) :
    cb'.covers n ↔ cb.covers n ∨ ∃ b ∈ blocks, b.start ≤ n ∧ n < b.stop := by
  induction blocks generalizing cb d cs with
  | nil =>
    simp only [Cacher.readLoop, Prod.mk.injEq] at h
    obtain ⟨-, h2, -, -⟩ := h
    subst h2
    simp
  | cons b rest ih =>
    simp only [Cacher.readLoop] at h
    cases hr : UnderlyingFs.read u b.size b.start with
    | error e =>
      rw [hr] at h
      simp at h
    | ok bd =>
      rw [hr] at h
      have hiter := ih (cb.add_range b) (fileWrite d b.start bd)
        (cs ++ [UCall.fetch b.size b.start (some bd)]) h
      rw [hiter, add_range_covers]
      constructor
      · rintro ((hc | hc) | ⟨s, hs, h1, h2⟩)
        · exact Or.inl hc
        · exact Or.inr ⟨b, List.mem_cons_self b rest, hc⟩
        · exact Or.inr ⟨s, List.mem_cons_of_mem b hs, h1, h2⟩
      · rintro (hc | ⟨s, hs, h1, h2⟩)
        · exact Or.inl (Or.inl hc)
        · rcases List.mem_cons.mp hs with hss | hss
          · subst hss
            exact Or.inl (Or.inr ⟨h1, h2⟩)
          · exact Or.inr ⟨s, hss, h1, h2⟩

theorem readLoop_ok_WF (u : Underlying) (blocks : List Range) (cb : Ranges)
    (d : List Nat) (cs : List UCall) (cb' : Ranges) (d' : List Nat) (cs' : List UCall)
    (h : Cacher.readLoop u blocks cb d cs = (.ok (), cb', d', cs'))
    (hWF : cb.WF) : cb'.WF := by
  induction blocks generalizing cb d cs with
  | nil =>
    simp only [Cacher.readLoop, Prod.mk.injEq] at h
    obtain ⟨-, h2, -, -⟩ := h
    subst h2
    exact hWF
  | cons b rest ih =>
    simp only [Cacher.readLoop] at h
    cases hr : UnderlyingFs.read u b.size b.start with
    | error e =>
      rw [hr] at h
      simp at h
    | ok bd =>
      rw [hr] at h
      exact ih (cb.add_range b) (fileWrite d b.start bd)
        (cs ++ [UCall.fetch b.size b.start (some bd)]) h (add_range_WF cb b hWF)

theorem readLoop_error (u : Underlying) (pre : List Range) (bk : Range) (post : List Range)
    (cb : Ranges) (d : List Nat) (cs : List UCall) (e : Err)
    (hpre : ∀ b ∈ pre, ∃ bd, UnderlyingFs.read u b.size b.start = .ok bd)
    (hbk : UnderlyingFs.read u bk.size bk.start = .error e) :
    Cacher.readLoop u (pre ++ bk :: post) cb d cs =
      (.error e, pre.foldl Ranges.add_range cb, pre.foldl (applyBlock u) d,
        cs ++ pre.map (fun b => UCall.fetch b.size b.start (fetchRet u b)) ++
          [UCall.fetch bk.size bk.start none]) := by
  induction pre generalizing cb d cs with
  | nil =>
    simp only [List.nil_append, List.map_nil, List.foldl_nil, List.append_nil]
    simp only [Cacher.readLoop]
    rw [hbk]
  | cons b rest ih =>
    obtain ⟨bd, hbd⟩ := hpre b (List.mem_cons_self b rest)
    rw [List.cons_append]
    simp only [Cacher.readLoop]
    rw [hbd]
    show Cacher.readLoop u (rest ++ bk :: post) (cb.add_range b) (fileWrite d b.start bd)
        (cs ++ [UCall.fetch b.size b.start (some bd)]) = _
    rw [ih (cb.add_range b) (fileWrite d b.start bd)
      (cs ++ [UCall.fetch b.size b.start (some bd)])
      (fun z hz => hpre z (List.mem_cons_of_mem b hz))]
    simp only [List.foldl_cons, List.map_cons]
    rw [show applyBlock u d b = fileWrite d b.start bd from by rw [applyBlock, hbd],
      show fetchRet u b = some bd from by rw [fetchRet, hbd]; rfl]
    simp [List.append_assoc]

/-! Cacher.read success analysis. -/

theorem emptyWF : Ranges.empty.WF :=
  ⟨List.Pairwise.nil, fun r hr => absurd hr (List.not_mem_nil r)⟩

theorem entryWF_getD (s : CacheEntry) (h : s.WF) : (s.ranges.getD Ranges.empty).WF := by
  rcases hr : s.ranges with _ | c
  · exact emptyWF
  · exact h c hr

theorem getattr_fields (u : Underlying) (s : CacheEntry) :
    (Cacher.getattr u s).st.data = s.data ∧ (Cacher.getattr u s).st.ranges = s.ranges ∧
      (Cacher.getattr u s).st.listing = s.listing := by
  rcases hs : s.stat with _ | a
  · rcases hg : UnderlyingFs.getattr u with e | a <;> simp [Cacher.getattr, hs, hg]
  · simp [Cacher.getattr, hs]

theorem readCore_ok (u : Underlying) (s : CacheEntry) (d : List Nat) (cs : List UCall)
    (size offset : Nat) (bs : List Nat)
    (hWF : s.WF) (hd : s.data = some d)
    (h : (Cacher.readCore u s d cs size offset).ret = .ok bs) :
    ∃ d1, (Cacher.readCore u s d cs size offset).st.data = some d1 ∧
      bs = (d1.drop offset).take size ∧
      (Cacher.readCore u s d cs size offset).st.WF ∧
      (∀ n, offset ≤ n → n < offset + size →
        (Cacher.readCore u s d cs size offset).st.covered n) ∧
      (Cacher.readCore u s d cs size offset).st.stat = s.stat ∧
      (Cacher.readCore u s d cs size offset).st.listing = s.listing := by
  have hWF0 : (s.ranges.getD Ranges.empty).WF := entryWF_getD s hWF
  simp only [Cacher.readCore] at h ⊢
  by_cases hbe : ((s.ranges.getD Ranges.empty).get_uncovered_portions
      ⟨offset, offset + size⟩).isEmpty
  · rw [if_pos hbe] at h ⊢
    have hnil : (s.ranges.getD Ranges.empty).get_uncovered_portions
        ⟨offset, offset + size⟩ = [] := List.isEmpty_iff.mp hbe
    refine ⟨d, hd, (Except.ok.inj h).symm, hWF, ?_, rfl, rfl⟩
    intro n h1 h2
    by_contra hnc
    have hm : memL ((s.ranges.getD Ranges.empty).get_uncovered_portions
        ⟨offset, offset + size⟩) n := by
      rw [Ranges.get_uncovered_portions, uncoveredAux_mem _ _ _ n hWF0]
      exact ⟨h1, h2, hnc⟩
    rw [hnil] at hm
    exact absurd hm (memL_nil n)
  · rw [if_neg hbe] at h ⊢
    generalize hloop : Cacher.readLoop u ((s.ranges.getD Ranges.empty).get_uncovered_portions
        ⟨offset, offset + size⟩) (s.ranges.getD Ranges.empty) d cs = lp at h ⊢
    obtain ⟨res, cb', d', cs'⟩ := lp
    cases res with
    | error e => simp at h
    | ok r0 =>
      refine ⟨d', rfl, (Except.ok.inj h).symm, ?_, ?_, rfl, rfl⟩
      · intro c hc
        cases hc
        exact readLoop_ok_WF u _ _ d cs cb' d' cs' hloop hWF0
      · intro n h1 h2
        show (Option.getD (some cb') Ranges.empty).covers n
        rw [Option.getD]
        rw [readLoop_ok_covers u _ _ d cs cb' d' cs' hloop n]
        by_cases hc : (s.ranges.getD Ranges.empty).covers n
        · exact Or.inl hc
        · refine Or.inr ?_
          have hm : memL ((s.ranges.getD Ranges.empty).get_uncovered_portions
              ⟨offset, offset + size⟩) n := by
            rw [Ranges.get_uncovered_portions, uncoveredAux_mem _ _ _ n hWF0]
            exact ⟨h1, h2, hc⟩
          obtain ⟨b, hb, hb1, hb2⟩ := hm
          exact ⟨b, hb, hb1, hb2⟩

theorem read_covered_noop (u' : Underlying) (t : CacheEntry) (d1 : List Nat)
    (size' offset' : Nat)
    (hd : t.data = some d1) (hWF : t.WF)
    (hcov : ∀ n, offset' ≤ n → n < offset' + size' → t.covered n) :
    Cacher.read u' t size' offset' = ⟨.ok ((d1.drop offset').take size'), t, []⟩ := by
  have hnil : (t.ranges.getD Ranges.empty).get_uncovered_portions
      ⟨offset', offset' + size'⟩ = [] := by
    rw [Ranges.get_uncovered_portions]
    exact uncoveredAux_nil_of_covered _ _ _ (entryWF_getD t hWF)
      (fun n h1 h2 => hcov n h2 h1)
  show (match t.data with
    | some d => Cacher.readCore u' t d [] size' offset'
    | none => _) = _
  rw [hd]
  show Cacher.readCore u' t d1 [] size' offset' = _
  simp only [Cacher.readCore]
  rw [hnil]
  rw [if_pos (by rfl)]

theorem read_ok (u : Underlying) (s : CacheEntry) (size offset : Nat) (bs : List Nat)
    (hWF : s.WF)
    (h : (Cacher.read u s size offset).ret = .ok bs) :
    ∃ d1, (Cacher.read u s size offset).st.data = some d1 ∧
      bs = (d1.drop offset).take size ∧
      (Cacher.read u s size offset).st.WF ∧
      (∀ n, offset ≤ n → n < offset + size → (Cacher.read u s size offset).st.covered n) := by
  rcases hd : s.data with _ | d
  · simp only [Cacher.read, hd] at h ⊢
    have hf := getattr_fields u s
    generalize hg : Cacher.getattr u s = g at h hf ⊢
    obtain ⟨hf1, hf2, hf3⟩ := hf
    rcases g with ⟨gret, gst, gcalls⟩
    cases gret with
    | error e => simp at h
    | ok a =>
      simp only at h hf1 hf2 hf3 ⊢
      by_cases hz : a.st_size = 0
      · rw [if_pos hz] at h
        simp at h
      · rw [if_neg hz] at h ⊢
        have hWF2 : CacheEntry.WF { gst with data := some (List.replicate a.st_size 0) } := by
          intro c hc
          rw [show ({ gst with data := some (List.replicate a.st_size 0) } :
            CacheEntry).ranges = gst.ranges from rfl] at hc
          exact hWF c (by rw [← hf2]; exact hc)
        obtain ⟨d1, h1, h2, h3, h4, -, -⟩ := readCore_ok u _ (List.replicate a.st_size 0)
          gcalls size offset bs hWF2 rfl h
        exact ⟨d1, h1, h2, h3, h4⟩
  · simp only [Cacher.read, hd] at h ⊢
    obtain ⟨d1, h1, h2, h3, h4, -, -⟩ := readCore_ok u s d [] size offset bs hWF hd h
    exact ⟨d1, h1, h2, h3, h4⟩

theorem slice_sub (d : List Nat) (o s o' s' : Nat) (h1 : o ≤ o') (h2 : o' + s' ≤ o + s) :
    (((d.drop o).take s).drop (o' - o)).take s' = (d.drop o').take s' := by
  rw [List.drop_take, List.drop_drop, List.take_take]
  congr 1
  · omega
  · congr 1
    omega

/-- C1: for every read(path, size, offset) that returns, any subsequent read
of the same path over a sub-range of [offset, offset+size) makes zero
underlying-source calls, leaves the cache files untouched, and returns the
bytes of the first result restricted to that sub-range; in particular
repeating the identical read returns the identical bytes with zero
underlying-source calls.  The second call's underlying source u' is
arbitrary: it is never consulted. -/
theorem C1_read_then_subrange (u u' : Underlying) (s : CacheEntry)
    (size offset size' offset' : Nat) (bs : List Nat)
    (hWF : s.WF)
    (h1 : (Cacher.read u s size offset).ret = .ok bs)
    (hlo : offset ≤ offset') (hhi : offset' + size' ≤ offset + size) :
    (Cacher.read u' (Cacher.read u s size offset).st size' offset').calls = [] ∧
    (Cacher.read u' (Cacher.read u s size offset).st size' offset').st =
      (Cacher.read u s size offset).st ∧
    (Cacher.read u' (Cacher.read u s size offset).st size' offset').ret =
      .ok ((bs.drop (offset' - offset)).take size') ∧
    (Cacher.read u' (Cacher.read u s size offset).st size offset).ret = .ok bs ∧
    (Cacher.read u' (Cacher.read u s size offset).st size offset).calls = [] := by
  obtain ⟨d1, hd1, hbs, hWF1, hcov⟩ := read_ok u s size offset bs hWF h1
  have hnoop := read_covered_noop u' _ d1 size' offset' hd1 hWF1
    (fun n hn1 hn2 => hcov n (by omega) (by omega))
  have hnoop2 := read_covered_noop u' _ d1 size offset hd1 hWF1
    (fun n hn1 hn2 => hcov n hn1 hn2)
  refine ⟨by rw [hnoop], by rw [hnoop], ?_, ?_, by rw [hnoop2]⟩
  · rw [hnoop]
    show Except.ok ((d1.drop offset').take size') = _
    rw [hbs, slice_sub d1 offset size offset' size' hlo hhi]
  · rw [hnoop2, hbs]

/-- Witness for C1 at a concrete instance: after read(size 3, offset 2) of
/a.txt from an empty cache returned "234", the sub-range read(size 1,
offset 3) makes zero underlying calls and returns "3". -/
theorem C1_read_then_subrange_witness :
    (Cacher.read aFile (Cacher.read aFile CacheEntry.empty 3 2).st 1 3).calls = [] ∧
    (Cacher.read aFile (Cacher.read aFile CacheEntry.empty 3 2).st 1 3).ret =
      .ok ((([50, 51, 52] : List Nat).drop (3 - 2)).take 1) := by
  have hW : CacheEntry.empty.WF := fun c hc => by cases hc
  have h := C1_read_then_subrange aFile aFile CacheEntry.empty 3 2 1 3 [50, 51, 52] hW
    (by decide) (by decide) (by decide)
  exact ⟨h.1, h.2.2.1⟩

/-- C3: the spec's scenario on /a.txt (ten bytes "0123456789", ASCII codes)
starting from an empty cache: read(size 3, offset 2) returns "234" (bytes
50 51 52) and leaves Coverage {[2,5)}; the subsequent read(size 5,
offset 0) returns "01234" (48..52), makes exactly one underlying fetch,
namely read(size 2, offset 0) for the gap [0,2), and leaves Coverage
{[0,5)}. -/
theorem C3_scenario :
    (Cacher.read aFile CacheEntry.empty 3 2).ret = .ok [50, 51, 52] ∧
    (Cacher.read aFile CacheEntry.empty 3 2).st.ranges = some ⟨[⟨2, 5⟩]⟩ ∧
    (Cacher.read aFile (Cacher.read aFile CacheEntry.empty 3 2).st 5 0).ret =
      .ok [48, 49, 50, 51, 52] ∧
    (Cacher.read aFile (Cacher.read aFile CacheEntry.empty 3 2).st 5 0).calls =
      [.fetch 2 0 (some [48, 49])] ∧
    (Cacher.read aFile (Cacher.read aFile CacheEntry.empty 3 2).st 5 0).st.ranges =
      some ⟨[⟨0, 5⟩]⟩ := by
  decide

/-- C5: when a gap fetch fails during read(path, size, offset) on a path
whose data store exists, the read aborts with that error, the persisted
Coverage record is byte-identical to what it was before the whole read (no
Coverage credit for any gap of this read, in particular none for the failed
one), and the data store holds exactly the writes of the gaps fetched
before the failing one — the failed gap contributed nothing. -/
theorem C5_failed_gap_fetch (u : Underlying) (s : CacheEntry) (size offset : Nat)
    (d0 : List Nat) (pre : List Range) (bk : Range) (post : List Range) (e : Err)
    (hd : s.data = some d0)
    (hblocks : (s.ranges.getD Ranges.empty).get_uncovered_portions
      ⟨offset, offset + size⟩ = pre ++ bk :: post)
    (hpre : ∀ b ∈ pre, ∃ bd, UnderlyingFs.read u b.size b.start = Except.ok bd)
    (hbk : UnderlyingFs.read u bk.size bk.start = Except.error e) :
    (Cacher.read u s size offset).ret = .error e ∧
    (Cacher.read u s size offset).st.ranges = s.ranges ∧
    (Cacher.read u s size offset).st.data = some (pre.foldl (applyBlock u) d0) ∧
    (Cacher.read u s size offset).st.stat = s.stat ∧
    (Cacher.read u s size offset).st.listing = s.listing := by
  have hne2 : ¬ ((pre ++ bk :: post).isEmpty = true) := by
    cases pre <;> simp
  simp only [Cacher.read, hd, Cacher.readCore]
  rw [hblocks, if_neg hne2,
    readLoop_error u pre bk post (s.ranges.getD Ranges.empty) d0 [] e hpre hbk]
  exact ⟨rfl, rfl, rfl, rfl, rfl⟩

/-- The underlying source of the C5 witness: /a.txt with a transport fault
injected on the request for [4,6). -/
def c5u : Underlying := ⟨some (.file aStat digits), [⟨4, 6⟩]⟩

/-- The cache state of the C5 witness: data store pre-sized to ten zero
bytes, Coverage {[2,4)}, stat cached. -/
def c5s : CacheEntry := ⟨some (List.replicate 10 0), some ⟨[⟨2, 4⟩]⟩, some aStat, none⟩

/-- Witness for C5: read(size 6, offset 0) against c5u/c5s has gaps [0,2)
and [4,6); the second gap's fetch fails, the read errors, Coverage stays
{[2,4)}, and the data store holds exactly the write of gap [0,2). -/
theorem C5_failed_gap_fetch_witness :
    (Cacher.read c5u c5s 6 0).ret = .error .IOError ∧
    (Cacher.read c5u c5s 6 0).st.ranges = some ⟨[⟨2, 4⟩]⟩ ∧
    (Cacher.read c5u c5s 6 0).st.data =
      some ([Range.mk 0 2].foldl (applyBlock c5u) (List.replicate 10 0)) := by
  have hpre : ∀ b ∈ [Range.mk 0 2], ∃ bd, UnderlyingFs.read c5u b.size b.start =
      Except.ok bd := by
    intro b hb
    rw [List.mem_singleton.mp hb]
    exact ⟨[48, 49], by decide⟩
  have h := C5_failed_gap_fetch c5u c5s 6 0 (List.replicate 10 0) [⟨0, 2⟩] ⟨4, 6⟩ []
    Err.IOError rfl (by decide) hpre (by decide)
  exact ⟨h.1, h.2.1, h.2.2.1⟩

theorem readdir_ok_listing (u : Underlying) (s : CacheEntry) (l : List String)
    (h1 : (Cacher.readdir u s).ret = .ok l) :
    (Cacher.readdir u s).st.listing = some l := by
  rcases hs : s.listing with _ | l0
  · rcases hg : UnderlyingFs.readdir u with e | l1
    · simp [Cacher.readdir, hs, hg] at h1
    · simp [Cacher.readdir, hs, hg] at h1 ⊢
      exact h1
  · simp [Cacher.readdir, hs] at h1 ⊢
    exact h1

theorem readdir_cached (u : Underlying) (t : CacheEntry) (l : List String)
    (ht : t.listing = some l) :
    Cacher.readdir u t = ⟨.ok l, t, []⟩ := by
  simp [Cacher.readdir, ht]

theorem getattr_cached (u : Underlying) (t : CacheEntry) (a : FuseStat)
    (ht : t.stat = some a) :
    Cacher.getattr u t = ⟨.ok a, t, []⟩ := by
  simp [Cacher.getattr, ht]

/-- C6: once readdir(path) has returned a listing, a second readdir returns
the same sequence with zero underlying-source calls and no state change,
whatever the underlying source now holds (strict cache-once policy); and a
persisted listing or attributes record is always served from the cache
verbatim with zero underlying-source calls. -/
theorem C6_readdir_cache_once (u u' : Underlying) (s : CacheEntry) (l : List String)
    (h1 : (Cacher.readdir u s).ret = .ok l) :
    (Cacher.readdir u' (Cacher.readdir u s).st).ret = .ok l ∧
    (Cacher.readdir u' (Cacher.readdir u s).st).calls = [] ∧
    (Cacher.readdir u' (Cacher.readdir u s).st).st = (Cacher.readdir u s).st ∧
    (∀ l0, s.listing = some l0 → Cacher.readdir u s = ⟨.ok l0, s, []⟩) ∧
    (∀ a, s.stat = some a → Cacher.getattr u s = ⟨.ok a, s, []⟩) := by
  have h2 := readdir_cached u' (Cacher.readdir u s).st l (readdir_ok_listing u s l h1)
  rw [h2]
  exact ⟨rfl, rfl, rfl, fun l0 h => readdir_cached u s l0 h,
    fun a h => getattr_cached u s a h⟩

/-- The underlying directory of the C6 witness, and the changed directory
for the second call. -/
def c6dir : Underlying := ⟨some (.dir ⟨0, 0, 0⟩ ["f1", "f2"]), []⟩

/-- A different underlying listing used for the second readdir call. -/
def c6dir2 : Underlying := ⟨some (.dir ⟨0, 0, 0⟩ ["f3"]), []⟩

/-- Witness for C6: readdir from an empty cache returns [".", "..", "f1",
"f2"]; calling again after the source listing changed returns the same
sequence with zero underlying calls. -/
theorem C6_readdir_cache_once_witness :
    (Cacher.readdir c6dir2 (Cacher.readdir c6dir CacheEntry.empty).st).ret =
      .ok [".", "..", "f1", "f2"] ∧
    (Cacher.readdir c6dir2 (Cacher.readdir c6dir CacheEntry.empty).st).calls = [] := by
  have h := C6_readdir_cache_once c6dir c6dir2 CacheEntry.empty [".", "..", "f1", "f2"]
    (by decide)
  exact ⟨h.1, h.2.1⟩

/-- C7: getattr on a path absent at the underlying source and not yet
cached fails with NotFound and creates nothing: the cache files afterwards
are exactly the cache files before, and from an empty entry the entry stays
empty (no attributes, data or coverage record). -/
theorem C7_getattr_missing (u : Underlying) (s : CacheEntry)
    (hu : u.node = none) (hs : s.stat = none) :
    (Cacher.getattr u s).ret = .error .NotFound ∧
    (Cacher.getattr u s).st = s ∧
    (Cacher.getattr u CacheEntry.empty).st = CacheEntry.empty := by
  have hg : UnderlyingFs.getattr u = .error .NotFound := by
    rw [UnderlyingFs.getattr, hu]
  refine ⟨?_, ?_, ?_⟩
  · simp [Cacher.getattr, hs, hg]
  · simp [Cacher.getattr, hs, hg]
  · simp [Cacher.getattr, hg]
    rfl

/-- Witness for C7: the missing path /missing against an empty cache. -/
theorem C7_getattr_missing_witness :
    (Cacher.getattr ⟨none, []⟩ CacheEntry.empty).ret = .error .NotFound ∧
    (Cacher.getattr ⟨none, []⟩ CacheEntry.empty).st = CacheEntry.empty := by
  have h := C7_getattr_missing ⟨none, []⟩ CacheEntry.empty rfl rfl
  exact ⟨h.1, h.2.1⟩

/-- C9: PersistentCacheFs.open rejects any open whose access mode includes
write access (O_WRONLY or O_RDWR) with -EACCES, and accepts opens whose
access bits equal O_RDONLY; the modelled engine has no write operation, so
writes never reach the cached read surface. -/
theorem C9_open_access (flags : Nat) :
    (flags &&& O_WRONLY ≠ 0 → PersistentCacheFs.open_ flags = -errnoEACCES) ∧
    (flags &&& O_RDWR ≠ 0 → PersistentCacheFs.open_ flags = -errnoEACCES) ∧
    (flags &&& (O_RDONLY ||| O_WRONLY ||| O_RDWR) = O_RDONLY →
      PersistentCacheFs.open_ flags = 0) := by
  simp only [PersistentCacheFs.open_, show O_RDONLY = 0 from rfl,
    show O_WRONLY = 1 from rfl, show O_RDWR = 2 from rfl,
    show ((0 : Nat) ||| 1 ||| 2) = 3 from by decide]
  refine ⟨?_, ?_, ?_⟩
  · intro h
    rw [if_pos]
    intro h3
    apply h
    have ha := Nat.land_assoc flags 3 1
    rw [h3, show (3 : Nat) &&& 1 = 1 from by decide,
      show (0 : Nat) &&& 1 = 0 from by decide] at ha
    exact ha.symm
  · intro h
    rw [if_pos]
    intro h3
    apply h
    have ha := Nat.land_assoc flags 3 2
    rw [h3, show (3 : Nat) &&& 2 = 2 from by decide,
      show (0 : Nat) &&& 2 = 0 from by decide] at ha
    exact ha.symm
  · intro h
    rw [if_neg (by simp [h])]

/-- Witness for C9: O_WRONLY and O_RDWR opens fail with -EACCES, an
O_RDONLY open succeeds. -/
theorem C9_open_access_witness :
    PersistentCacheFs.open_ 1 = -errnoEACCES ∧
    PersistentCacheFs.open_ 2 = -errnoEACCES ∧
    PersistentCacheFs.open_ 0 = 0 :=
  ⟨(C9_open_access 1).1 (by decide), (C9_open_access 2).2.1 (by decide),
    (C9_open_access 0).2.2 (by decide)⟩

/-- C10: on a source file whose stat size is 0, a first read (cache.data
absent) of any size and offset — including zero-length requests — raises
IOError while creating the data store (the pre-sizing seek targets offset
st_size - 1 = -1) and never returns the empty byte string. -/
theorem C10_zero_size_first_read (st0 : FuseStat) (content : List Nat) (faults : List Range)
    (s : CacheEntry) (size offset : Nat)
    (hz : st0.st_size = 0) (hd : s.data = none)
    (hstat : s.stat = none ∨ s.stat = some st0) :
    (Cacher.read ⟨some (.file st0 content), faults⟩ s size offset).ret = .error .IOError ∧
    (Cacher.read ⟨some (.file st0 content), faults⟩ s size offset).ret ≠
      .ok ([] : List Nat) := by
  have hga : (Cacher.getattr ⟨some (.file st0 content), faults⟩ s).ret = .ok st0 := by
    rcases hstat with hs | hs
    · simp [Cacher.getattr, hs, UnderlyingFs.getattr, UNode.stat]
    · simp [Cacher.getattr, hs]
  simp only [Cacher.read, hd]
  generalize hg : Cacher.getattr ⟨some (.file st0 content), faults⟩ s = g at hga
  rcases g with ⟨gret, gst, gcalls⟩
  simp only at hga
  subst hga
  simp [hz]

/-- Witness for C10: a zero-size file, empty cache, a 4096-byte request. -/
theorem C10_zero_size_first_read_witness :
    (Cacher.read ⟨some (.file ⟨0, 0, 0⟩ []), []⟩ CacheEntry.empty 4096 0).ret =
      .error .IOError :=
  (C10_zero_size_first_read ⟨0, 0, 0⟩ [] [] CacheEntry.empty 4096 0 rfl rfl (Or.inl rfl)).1

/-- Counterexample to C4 as stated: reading size 5 at offset 20 of the
ten-byte file /a.txt from an empty cache succeeds with the empty string,
yet leaves the interval [20,25) in Coverage although the single fetch the
read performed returned zero bytes — bytes 20..24 are marked covered
without ever having been fetched. -/
theorem C4_counterexample :
    (Cacher.read aFile CacheEntry.empty 5 20).st.ranges = some ⟨[⟨20, 25⟩]⟩ ∧
    (Cacher.read aFile CacheEntry.empty 5 20).calls =
      [UCall.stat, UCall.fetch 5 20 (some [])] ∧
    (Cacher.read aFile CacheEntry.empty 5 20).ret = .ok [] := by
  decide

theorem ufs_read_file (st : FuseStat) (content : List Nat) (faults : List Range)
    (size offset : Nat) :
    UnderlyingFs.read ⟨some (.file st content), faults⟩ size offset = .error .IOError ∨
    UnderlyingFs.read ⟨some (.file st content), faults⟩ size offset =
      .ok ((content.drop offset).take size) := by
  rw [UnderlyingFs.read]
  by_cases hf : Range.mk offset (offset + size) ∈
      (Underlying.mk (some (.file st content)) faults).read_faults
  · left
    rw [if_pos hf]
  · right
    rw [if_neg hf]

theorem readLoop_inv (st : FuseStat) (content : List Nat) (faults : List Range)
    (blocks : List Range) (cb : Ranges) (d : List Nat) (cs : List UCall)
    (res : Except Err Unit) (cb' : Ranges) (d' : List Nat) (cs' : List UCall)
    (h : Cacher.readLoop ⟨some (.file st content), faults⟩ blocks cb d cs =
      (res, cb', d', cs'))
    (hlen : d.length = content.length)
    (hcb : ∀ n, n < content.length → cb.covers n → d.getD n 0 = content.getD n 0) :
    d'.length = content.length ∧
    (∀ n, n < content.length → d'.getD n 0 = content.getD n 0 ∨ d'.getD n 0 = d.getD n 0) ∧
    (res = .ok () → ∀ n, n < content.length → cb'.covers n →
      d'.getD n 0 = content.getD n 0) := by
  induction blocks generalizing cb d cs with
  | nil =>
    simp only [Cacher.readLoop, Prod.mk.injEq] at h
    obtain ⟨h1, h2, h3, h4⟩ := h
    subst h2
    subst h3
    exact ⟨hlen, fun n hn => Or.inr rfl, fun _ n hn hc => hcb n hn hc⟩
  | cons b rest ih =>
    simp only [Cacher.readLoop] at h
    rcases ufs_read_file st content faults b.size b.start with hr | hr <;> rw [hr] at h
    · simp only [Prod.mk.injEq] at h
      obtain ⟨h1, h2, h3, h4⟩ := h
      subst h1
      subst h2
      subst h3
      refine ⟨hlen, fun n hn => Or.inr rfl, ?_⟩
      intro hok
      simp at hok
    · simp only at h
      by_cases hbe : (content.drop b.start).take b.size = []
      · have hw : fileWrite d b.start ((content.drop b.start).take b.size) = d := by
          rw [fileWrite, if_pos (by rw [hbe]; rfl)]
        rw [hw] at h
        have hcb2 : ∀ n, n < content.length → (cb.add_range b).covers n →
            d.getD n 0 = content.getD n 0 := by
          intro n hn hc
          rw [add_range_covers] at hc
          rcases hc with hc | ⟨hc1, hc2⟩
          · exact hcb n hn hc
          · exfalso
            have hlen0 : ((content.drop b.start).take b.size).length = 0 := by
              rw [hbe]; rfl
            rw [slice_length] at hlen0
            simp only [Range.size] at hlen0
            omega
        exact ih (cb.add_range b) d _ h hlen hcb2
      · have hbl : 0 < ((content.drop b.start).take b.size).length :=
          List.length_pos.mpr hbe
        have hlb : ((content.drop b.start).take b.size).length =
            min b.size (content.length - b.start) := slice_length content b.start b.size
        have hsizeb : b.size = b.stop - b.start := rfl
        have hble : b.start + ((content.drop b.start).take b.size).length ≤ d.length := by
          rw [hlen]
          omega
        have hw2 := fileWrite_length d ((content.drop b.start).take b.size) b.start hble
        have hcb2 : ∀ n, n < content.length → (cb.add_range b).covers n →
            (fileWrite d b.start ((content.drop b.start).take b.size)).getD n 0 =
              content.getD n 0 := by
          intro n hn hc
          rw [fileWrite_getD d _ b.start n hble]
          by_cases hwin : b.start ≤ n ∧ n < b.start +
              ((content.drop b.start).take b.size).length
          · rw [if_pos hwin]
            rw [slice_getD content b.start b.size (n - b.start) (by omega)]
            congr 1
            omega
          · rw [if_neg hwin]
            rw [add_range_covers] at hc
            rcases hc with hc | ⟨hc1, hc2⟩
            · exact hcb n hn hc
            · exfalso
              omega
        obtain ⟨ih1, ih2, ih3⟩ := ih (cb.add_range b)
          (fileWrite d b.start ((content.drop b.start).take b.size)) _ h
          (by rw [hw2, hlen]) hcb2
        refine ⟨ih1, ?_, ih3⟩
        intro n hn
        rcases ih2 n hn with hh | hh
        · exact Or.inl hh
        · rw [hh, fileWrite_getD d _ b.start n hble]
          by_cases hwin : b.start ≤ n ∧ n < b.start +
              ((content.drop b.start).take b.size).length
          · rw [if_pos hwin]
            refine Or.inl ?_
            rw [slice_getD content b.start b.size (n - b.start) (by omega)]
            congr 1
            omega
          · rw [if_neg hwin]
            exact Or.inr rfl

theorem readCore_inv (st : FuseStat) (content : List Nat) (faults : List Range)
    (s : CacheEntry) (d : List Nat) (cs : List UCall) (size offset : Nat)
    (hd : s.data = some d)
    (hInv : CacheInv st content s) :
    CacheInv st content
      (Cacher.readCore ⟨some (.file st content), faults⟩ s d cs size offset).st := by
  obtain ⟨hWFs, hrd, hst, hdat⟩ := hInv
  obtain ⟨hlen, hcov⟩ := hdat d hd
  simp only [Cacher.readCore]
  by_cases hbe : ((s.ranges.getD Ranges.empty).get_uncovered_portions
      ⟨offset, offset + size⟩).isEmpty
  · rw [if_pos hbe]
    exact ⟨hWFs, hrd, hst, hdat⟩
  · rw [if_neg hbe]
    generalize hloop : Cacher.readLoop ⟨some (.file st content), faults⟩
      ((s.ranges.getD Ranges.empty).get_uncovered_portions ⟨offset, offset + size⟩)
      (s.ranges.getD Ranges.empty) d cs = lp
    obtain ⟨res, cb', d', cs'⟩ := lp
    obtain ⟨hi1, hi2, hi3⟩ := readLoop_inv st content faults _ _ d cs res cb' d' cs'
      hloop hlen (fun n hn hc => hcov n hn hc)
    cases res with
    | error e =>
      refine ⟨hWFs, ?_, hst, ?_⟩
      · intro _
        rfl
      · intro d2 hd2
        cases hd2
        refine ⟨hi1, ?_⟩
        intro n hn hc
        rcases hi2 n hn with hh | hh
        · exact hh
        · rw [hh]
          exact hcov n hn hc
    | ok r0 =>
      refine ⟨?_, ?_, hst, ?_⟩
      · intro c hc
        cases hc
        exact readLoop_ok_WF _ _ _ d cs cb' d' cs' hloop (entryWF_getD s hWFs)
      · intro _
        rfl
      · intro d2 hd2
        cases hd2
        refine ⟨hi1, ?_⟩
        intro n hn hc
        exact hi3 rfl n hn hc

theorem getattr_file (st : FuseStat) (content : List Nat) (faults : List Range)
    (s : CacheEntry) (hst : ∀ a, s.stat = some a → a = st) :
    Cacher.getattr ⟨some (.file st content), faults⟩ s = ⟨.ok st, s, []⟩ ∨
    Cacher.getattr ⟨some (.file st content), faults⟩ s =
      ⟨.ok st, { s with stat := some st }, [.stat]⟩ := by
  rcases hs : s.stat with _ | a
  · right
    simp [Cacher.getattr, hs, UnderlyingFs.getattr, UNode.stat]
  · left
    rw [getattr_cached _ s a hs, hst a hs]

/-- C4 amended: against an underlying file whose stat size equals its
content length (arbitrary transport faults allowed), every Cacher operation
preserves the agreement invariant: the persisted Coverage is well-formed, a
Coverage record exists only once the data store does, a cached stat is the
source's stat, the data store is pre-sized to the source size, and every
covered byte BELOW the source size holds exactly the byte the underlying
source returns for it.  Bytes at or beyond the source size may be marked
covered even though the source returned no bytes for them (short read at
end-of-file); for those offsets the data store, like the source, holds no
byte, so nothing wrong is ever served. -/
theorem C4_amended_invariant (st : FuseStat) (content : List Nat) (faults : List Range)
    (s : CacheEntry) (size offset : Nat)
    (hsz : st.st_size = content.length)
    (hInv : CacheInv st content s) :
    CacheInv st content (Cacher.read ⟨some (.file st content), faults⟩ s size offset).st ∧
    CacheInv st content (Cacher.getattr ⟨some (.file st content), faults⟩ s).st ∧
    CacheInv st content (Cacher.readdir ⟨some (.file st content), faults⟩ s).st := by
  obtain ⟨hWFs, hrd, hst, hdat⟩ := hInv
  have hInv2 : CacheInv st content { s with stat := some st } :=
    ⟨hWFs, hrd, fun a ha => (Option.some.inj ha).symm, hdat⟩
  refine ⟨?_, ?_, ?_⟩
  · rcases hd : s.data with _ | d
    · have hrn : s.ranges = none := by
        rcases hr : s.ranges with _ | c
        · rfl
        · have := hrd (by rw [hr]; rfl)
          rw [hd] at this
          cases this
      simp only [Cacher.read, hd]
      rcases getattr_file st content faults s hst with hg | hg <;> rw [hg] <;> simp only <;>
        by_cases hz : st.st_size = 0
      · rw [if_pos hz]
        refine ⟨hWFs, fun _ => rfl, hst, ?_⟩
        intro d2 hd2
        cases hd2
        constructor
        · rw [List.length_nil]
          omega
        · intro n hn hc
          omega
      · rw [if_neg hz]
        refine readCore_inv st content faults _ _ _ size offset rfl
          ⟨hWFs, fun _ => rfl, hst, ?_⟩
        intro d2 hd2
        cases hd2
        constructor
        · rw [List.length_replicate]
          omega
        · intro n hn hc
          have hcr : (s.ranges.getD Ranges.empty).covers n := hc
          rw [hrn] at hcr
          exact absurd hcr (memL_nil n)
      · rw [if_pos hz]
        refine ⟨hWFs, fun _ => rfl, fun a ha => (Option.some.inj ha).symm, ?_⟩
        intro d2 hd2
        cases hd2
        constructor
        · rw [List.length_nil]
          omega
        · intro n hn hc
          omega
      · rw [if_neg hz]
        refine readCore_inv st content faults _ _ _ size offset rfl
          ⟨hWFs, fun _ => rfl, fun a ha => (Option.some.inj ha).symm, ?_⟩
        intro d2 hd2
        cases hd2
        constructor
        · rw [List.length_replicate]
          omega
        · intro n hn hc
          have hcr : (s.ranges.getD Ranges.empty).covers n := hc
          rw [hrn] at hcr
          exact absurd hcr (memL_nil n)
    · simp only [Cacher.read, hd]
      exact readCore_inv st content faults s d [] size offset hd ⟨hWFs, hrd, hst, hdat⟩
  · rcases getattr_file st content faults s hst with hg | hg <;> rw [hg]
    · exact ⟨hWFs, hrd, hst, hdat⟩
    · exact hInv2
  · rcases hl : s.listing with _ | l0
    · simp [Cacher.readdir, hl, UnderlyingFs.readdir]
      exact ⟨hWFs, hrd, hst, hdat⟩
    · rw [readdir_cached _ s l0 hl]
      exact ⟨hWFs, hrd, hst, hdat⟩

/-- Witness for the amended C4: after two reads of /a.txt (one of them past
end-of-file) starting from the empty cache, the invariant still holds. -/
theorem C4_amended_invariant_witness :
    CacheInv aStat digits
      (Cacher.read aFile (Cacher.read aFile CacheEntry.empty 5 20).st 3 2).st := by
  have h0 : CacheInv aStat digits CacheEntry.empty :=
    ⟨(fun c hc => nomatch hc), (fun h => absurd h (by decide)),
      (fun a ha => nomatch ha), (fun d hd => nomatch hd)⟩
  have h1 := (C4_amended_invariant aStat digits [] CacheEntry.empty 5 20 rfl h0).1
  exact (C4_amended_invariant aStat digits [] _ 3 2 rfl h1).1
